import Mathlib

/-!
Verification of the account key-management core of cyano-wallet
(`src/api/accountApi.ts`) against its specification.

The registry operations (`addAccount`, `removeAccount`/`accountDelete`,
`filterTorusAccount`, `getAccount`, `isTorusAccount`,
`deserializePrivateKey`) are shallow embeddings of the TypeScript source.
Cryptographic primitives (scrypt/AES, HD derivation, base58/WIF checksum)
live in the external `ontology-ts-sdk` / `ontology-ts-crypto` libraries and
are modelled from the spec where a claim depends on them; such definitions
carry a `Modelled from the spec:` doc comment.
-/

namespace CyanoWallet

/-! ## Definitions -/

/-- An account of the wallet: `address` is the base58-encoded address
string (`account.address.toBase58()` in the source), `label` the account
label. Other fields (`publicKey`, `salt`, `encryptedKey`) do not influence
the registry operations verified here. -/
structure Account where
  address : String
  label : String
deriving DecidableEq

/-- The wallet registry: ordered list of accounts plus the
`defaultAccountAddress` selector. The source stores the default address as
a string, with the empty string for "no default" (`accountDelete` assigns
`''`); a `null`/`undefined` default is likewise modelled by `""` since the
source treats both as falsy/unset. -/
structure Wallet where
  accounts : List Account
  defaultAccountAddress : String
deriving DecidableEq

/-- Model of the JavaScript `str.split(sep)` for a one-character separator,
acting on the character list of the string: `splitChar sep l` is the list
of maximal separator-free segments of `l`. Like JS `split`, it returns
`[[]]` on the empty string and never returns an empty list of parts. -/
def splitChar (sep : Char) : List Char → List (List Char)
  | [] => [[]]
  | c :: rest =>
    if c = sep then
      [] :: splitChar sep rest
    else
      match splitChar sep rest with
      | [] => [[c]]
      | p :: ps => (c :: p) :: ps

/-- Embedding of `isTorusAccount` (accountApi.ts:143-146):
`label.split('@')` has exactly two parts and the second part is
`google` or `discord`. -/
def isTorusAccount (a : Account) : Bool :=
  let parts := splitChar '@' a.label.toList
  parts.length = 2 ∧
    (parts.getD 1 [] = "google".toList ∨ parts.getD 1 [] = "discord".toList)

/-- Embedding of the registry effect of `accountImportPrivateKey`
(accountApi.ts:89-92): append the account unless one with the same base58
address is already present, then unconditionally set it as the default
account. -/
def addAccount (w : Wallet) (acc : Account) : Wallet :=
  let w' :=
    if w.accounts.any (fun a => a.address = acc.address) then w
    else { w with accounts := w.accounts ++ [acc] }
  { w' with defaultAccountAddress := acc.address }

/-- The JS idiom `accounts.length > 0 ? accounts[0].address.toBase58() : ''`
used by `accountDelete` and `filterTorusAccount` to pick a new default. -/
def headAddr : List Account → String
  | [] => ""
  | b :: _ => b.address

/-- Embedding of the registry effect of `accountDelete`
(accountApi.ts:100-113): if an account with the address exists, drop every
account with that address; then, if the default address equals the deleted
address, point the default at the (new) first account, or clear it when the
registry became empty. -/
def removeAccount (addr : String) (w : Wallet) : Wallet :=
  let accounts' :=
    match w.accounts.find? (fun a => a.address = addr) with
    | some _ => w.accounts.filter (fun a => ¬ a.address = addr)
    | none => w.accounts
  if w.defaultAccountAddress = addr then
    { accounts := accounts', defaultAccountAddress := headAddr accounts' }
  else
    { accounts := accounts', defaultAccountAddress := w.defaultAccountAddress }

/-- One step of the `for (const account of wallet.accounts)` loop of
`filterTorusAccount` (accountApi.ts:153-159): the state is the list of
accounts kept so far together with the current `defaultAccountAddress`;
non-torus accounts are kept, and a torus account whose address equals the
current default clears the default. -/
def filterTorusStep (s : List Account × String) (a : Account) : List Account × String :=
  if ¬ isTorusAccount a then (s.1 ++ [a], s.2)
  else if a.address = s.2 then (s.1, "")
  else s

/-- Embedding of the registry effect of `filterTorusAccount`
(accountApi.ts:148-164): run the filtering loop and afterwards, if the
default is empty (falsy) and a first account exists, make it the default. -/
def filterTorusCore (w : Wallet) : Wallet :=
  let p := w.accounts.foldl filterTorusStep ([], w.defaultAccountAddress)
  { accounts := p.1,
    defaultAccountAddress := if p.2 = "" then headAddr p.1 else p.2 }

/-- Embedding of `getAccount` (accountApi.ts:120-137). `.ok (some a)` models
returning account `a`; `.ok none` models the JS fallback branch returning
`wallet.accounts[0]` on an empty list, i.e. `undefined`; `.error` models the
thrown `Error`. -/
def getAccount (w : Wallet) : Except String (Option Account) :=
  if w.defaultAccountAddress = "" then
    .ok w.accounts.head?
  else
    match w.accounts.find? (fun a => a.address = w.defaultAccountAddress) with
    | some a => .ok (some a)
    | none => .error "Default account not found in wallet"

/-- Modelled from the spec: the JSON serialization `wallet.toJson()` of the
external SDK ("serialized to/from a JSON-compatible structure"). Only its
shape as a non-empty JSON object string matters to the claims. -/
def serializeWallet (w : Wallet) : String :=
  "\x7b\"accounts\":[" ++
    String.intercalate ","
      (w.accounts.map (fun a =>
        "\x7b\"address\":\"" ++ a.address ++ "\",\"label\":\"" ++ a.label ++ "\"\x7d")) ++
    "],\"defaultAccountAddress\":\"" ++ w.defaultAccountAddress ++ "\"\x7d"

/-- Embedding of `accountDelete`'s return value (accountApi.ts:100-118):
the updated registry together with the serialized wallet, which is the
empty-string marker exactly when the registry became empty. -/
def accountDelete (addr : String) (w : Wallet) : Wallet × String :=
  let w' := removeAccount addr w
  (w', if w'.accounts = [] then "" else serializeWallet w')

/-- Embedding of `filterTorusAccount`'s return value (accountApi.ts:148-166):
the updated registry together with `wallet.toJson()`, returned
unconditionally. -/
def filterTorusAccount (w : Wallet) : Wallet × String :=
  let w' := filterTorusCore w
  (w', serializeWallet w')

/-- Joining parts back with the separator; inverse of `splitChar`. -/
def joinSep (sep : Char) : List (List Char) → List Char
  | [] => []
  | [p] => p
  | p :: q :: ps => p ++ sep :: joinSep sep (q :: ps)

/-- One registry operation of the sequence considered by the default
invariant: `addAccount` (as performed by `accountImportPrivateKey`),
`removeAccount` (`accountDelete`), `filterFederatedAccounts`
(`filterTorusAccount`). -/
inductive RegistryOp where
  | add : Account → RegistryOp
  | remove : String → RegistryOp
  | filterTorus : RegistryOp

/-- Apply one registry operation. -/
def applyOp (w : Wallet) : RegistryOp → Wallet
  | .add acc => addAccount w acc
  | .remove addr => removeAccount addr w
  | .filterTorus => filterTorusCore w

/-- Apply a finite sequence of registry operations, left to right. -/
def applyOps (w : Wallet) (ops : List RegistryOp) : Wallet :=
  ops.foldl applyOp w

/-- Accounts handed to `addAccount` by `accountImportPrivateKey` come from
`Account.create`, whose base58 address is never the empty string. -/
def opAddressOk : RegistryOp → Bool
  | .add acc => acc.address ≠ ""
  | _ => true

/-- The registry invariant of the spec's data model: address-unique
accounts with non-empty (base58) addresses, and a default address that is
empty iff the registry is empty and otherwise held by an account of the
registry. -/
def WalletInv (w : Wallet) : Prop :=
  (w.accounts.map Account.address).Nodup ∧
  (∀ a ∈ w.accounts, a.address ≠ "") ∧
  (w.defaultAccountAddress = "" ↔ w.accounts = []) ∧
  (w.accounts ≠ [] → ∃ a ∈ w.accounts, a.address = w.defaultAccountAddress)

/-- Character codes of a string. -/
def strEncode (s : String) : List Nat := s.toList.map Char.toNat

/-- The scrypt parameter record handed to `Account.create` and
`encryptedKey.decrypt` by the source (`blockSize`/`cost`/`parallel`/`size`
from the wallet's `r`/`n`/`p`/`dkLen`). -/
structure ScryptParams where
  blockSize : Nat
  cost : Nat
  parallel : Nat
  size : Nat
deriving DecidableEq

/-- Modelled from the spec: the scrypt key-derivation of the external
crypto library — a derived key determined by password, salt and
parameters; modelled injectively in the password so that a wrong password
never reproduces the derived key. -/
def kdf (password saltHex : String) (params : ScryptParams) : List Nat :=
  strEncode password ++ 1114112 ::
    (strEncode saltHex ++ 1114112 ::
      [params.blockSize, params.cost, params.parallel, params.size])

/-- An encrypted private-key record: cipher blob plus the integrity tag
binding derived key and account address. -/
structure EncryptedKey where
  blob : List Nat
  tag : List Nat
deriving DecidableEq

/-- Modelled from the spec: `encrypt(privateKey, password, address, salt,
scryptParams)` of the external crypto library, as used by `Account.create`
— derive a key by scrypt, encrypt the private-key bytes with it, and bind
the record to the account's address as integrity anchor. -/
def encryptKey (k : List Nat) (password address saltHex : String)
    (params : ScryptParams) : EncryptedKey :=
  { blob := k.map (fun b => (b + (kdf password saltHex params).sum) % 256),
    tag := strEncode address ++ 1114112 :: kdf password saltHex params }

/-- Modelled from the spec: `encryptedKey.decrypt(password, address,
saltHex, params)` as called by `decryptAccount` — recompute the derived
key, verify the integrity tag (failing uniformly on wrong password, wrong
address binding or corrupted blob), then invert the cipher. -/
def decryptKey (ek : EncryptedKey) (password address saltHex : String)
    (params : ScryptParams) : Option (List Nat) :=
  if ek.tag = strEncode address ++ 1114112 :: kdf password saltHex params then
    some (ek.blob.map (fun b =>
      (b + (256 - (kdf password saltHex params).sum % 256)) % 256))
  else
    none

/-- The apostrophe character of BIP32 hardened-path segments. -/
def apos : Char := Char.ofNat 39

/-- The fixed BIP32 path chosen by `accountImportMnemonics`
(accountApi.ts:53): the 888 coin type in neo-compatible mode, 1024
otherwise, both at account index 0. -/
def bip32Path (neo : Bool) : String :=
  if neo then
    "m/44" ++ apos.toString ++ "/888" ++ apos.toString ++ "/0" ++
      apos.toString ++ "/0/0"
  else
    "m/44" ++ apos.toString ++ "/1024" ++ apos.toString ++ "/0" ++
      apos.toString ++ "/0/0"

/-- Modelled from the spec: `PrivateKey.generateFromMnemonic` of the
external SDK — deterministic hierarchical derivation of key bytes from the
mnemonic and the derivation path, with distinct paths yielding distinct
keys; modelled as an injective pairing of mnemonic and path. -/
def generateFromMnemonic (mnemonics path : String) : List Nat :=
  strEncode mnemonics ++ 1114112 :: strEncode path

/-- The key derived by `accountImportMnemonics` (accountApi.ts:47-63) for
a mnemonic and mode. -/
def accountImportMnemonicsKey (mnemonics : String) (neo : Bool) : List Nat :=
  generateFromMnemonic mnemonics (bip32Path neo)

/-- The key algorithms of the SDK's `KeyType` lookup table. -/
inductive KeyType where
  | ECDSA
  | SM2
  | EDDSA
deriving DecidableEq

/-- Modelled from the spec: the `KeyType.fromHex` lookup table of the
external SDK (ECDSA `0x12`, SM2 `0x13`, EDDSA `0x14`), failing on
unrecognized algorithm tag bytes. -/
def keyTypeFromHex (n : Nat) : Except String KeyType :=
  if n = 18 then .ok .ECDSA
  else if n = 19 then .ok .SM2
  else if n = 20 then .ok .EDDSA
  else .error "unknown key type"

/-- The elliptic curves of the SDK's `CurveLabel` lookup table. -/
inductive CurveLabel where
  | SECP224R1
  | SECP256R1
  | SECP384R1
  | SECP521R1
  | SM2P256V1
  | ED25519
deriving DecidableEq

/-- Modelled from the spec: the `CurveLabel.fromHex` lookup table of the
external SDK, failing on unrecognized curve tag bytes. -/
def curveLabelFromHex (n : Nat) : Except String CurveLabel :=
  if n = 1 then .ok .SECP224R1
  else if n = 2 then .ok .SECP256R1
  else if n = 3 then .ok .SECP384R1
  else if n = 4 then .ok .SECP521R1
  else if n = 20 then .ok .SM2P256V1
  else if n = 25 then .ok .ED25519
  else .error "unknown curve"

/-- A deserialized private key: raw key bytes tagged with algorithm and
curve. -/
structure PrivateKey where
  key : List Nat
  algorithm : KeyType
  curve : CurveLabel
deriving DecidableEq

/-- Value of a hex digit (both cases), or `none`. -/
def hexDigit (c : Char) : Option Nat :=
  if 48 ≤ c.toNat ∧ c.toNat ≤ 57 then some (c.toNat - 48)
  else if 97 ≤ c.toNat ∧ c.toNat ≤ 102 then some (c.toNat - 87)
  else if 65 ≤ c.toNat ∧ c.toNat ≤ 70 then some (c.toNat - 55)
  else none

/-- Model of Node's `new Buffer(str, 'hex')` used by
`deserializePrivateKey`: decode pairs of hex digits and stop at the first
invalid or incomplete pair. -/
def jsHexDecode : List Char → List Nat
  | c1 :: c2 :: rest =>
    match hexDigit c1, hexDigit c2 with
    | some h, some l => (16 * h + l) :: jsHexDecode rest
    | _, _ => []
  | _ => []

/-- The tagged branch of `deserializePrivateKey` (accountApi.ts:198-208):
read a 1-byte algorithm tag, a 1-byte curve tag and 32 key bytes from the
`Reader` (failing when fewer are available), then decode the tags through
the lookup tables. -/
def readTagged : List Nat → Except String PrivateKey
  | a :: c :: rest =>
    if rest.length < 32 then .error "reader out of bounds"
    else
      match keyTypeFromHex a with
      | .error e => .error e
      | .ok alg =>
        match curveLabelFromHex c with
        | .error e => .error e
        | .ok curve => .ok ⟨rest.take 32, alg, curve⟩
  | _ => .error "reader out of bounds"

/-- Embedding of `deserializePrivateKey` (accountApi.ts:188-209): decode
the string as hex; exactly 32 bytes mean a raw ECDSA/secp256r1 key, any
other length is parsed as algorithm tag, curve tag and 32 key bytes. -/
def deserializePrivateKey (s : String) : Except String PrivateKey :=
  if (jsHexDecode s.toList).length = 32 then
    .ok ⟨jsHexDecode s.toList, .ECDSA, .SECP256R1⟩
  else
    readTagged (jsHexDecode s.toList)

/-- The base58 alphabet of WIF. -/
def base58Chars : List Char :=
  "123456789ABCDEFGHJKLMNPQRSTUVWXYZabcdefghijkmnopqrstuvwxyz".toList

/-- Value of a base58 digit, or `none` for a character outside the
alphabet. -/
def base58Val (c : Char) : Option Nat := base58Chars.indexOf? c

/-- Big-endian base-256 digits of a number (fuel-based for structural
recursion; the first argument bounds the recursion depth). -/
def natToBytesAux : Nat → Nat → List Nat
  | 0, _ => []
  | _ + 1, 0 => []
  | fuel + 1, n + 1 => natToBytesAux fuel ((n + 1) / 256) ++ [(n + 1) % 256]

/-- Big-endian byte representation of a number. -/
def natToBytesBE (n : Nat) : List Nat := natToBytesAux n n

/-- Modelled from the spec: base58 decoding, part of the standard WIF
decode performed by the external SDK's `PrivateKey.deserializeWIF`. -/
def base58Decode (s : String) : Option (List Nat) := do
  let digits ← s.toList.mapM base58Val
  let value := digits.foldl (fun acc d => acc * 58 + d) 0
  some (List.replicate (s.toList.takeWhile (fun c => c = '1')).length 0 ++
    natToBytesBE value)

/-- Modelled from the spec: the 4-byte checksum of base58check. The real
double-SHA256 lives in the external crypto library and is replaced by a
concrete stand-in; only the recompute-and-compare structure matters to the
claim. -/
def wifChecksum (payload : List Nat) : List Nat :=
  let h := payload.foldl (fun a b => (a * 131 + b + 7) % 4294967296) 5381
  [h % 256, h / 256 % 256, h / 65536 % 256, h / 16777216 % 256]

/-- Modelled from the spec: `PrivateKey.deserializeWIF` of the external
SDK — base58-decode the 52-character string, check the 38-byte layout,
verify the trailing 4-byte checksum (failing with a checksum mismatch on
corruption) and return the 32 key bytes with the default algorithm and
curve. -/
def deserializeWIF (s : String) : Except String PrivateKey :=
  match base58Decode s with
  | none => .error "base58 decode failed"
  | some bytes =>
    if bytes.length = 38 then
      if bytes.drop 34 = wifChecksum (bytes.take 34) then
        .ok ⟨(bytes.drop 1).take 32, .ECDSA, .SECP256R1⟩
      else .error "checksum mismatch"
    else .error "invalid WIF length"

/-- Embedding of the import dispatch of `accountImportPrivateKey`
(accountApi.ts:82-86): strings of length exactly 52 are decoded as WIF,
everything else goes through `deserializePrivateKey`. -/
def parsePrivateKeyInput (s : String) : Except String PrivateKey :=
  if s.length = 52 then deserializeWIF s else deserializePrivateKey s

/-! ## Theorems -/

/-- `splitChar` never produces an empty list of parts, like JS `split`. -/
theorem splitChar_ne_nil (sep : Char) (l : List Char) : splitChar sep l ≠ [] := by
  induction l with
  | nil => simp [splitChar]
  | cons c rest ih =>
    by_cases hc : c = sep
    · simp [splitChar, hc]
    · cases h : splitChar sep rest with
      | nil => exact absurd h ih
      | cons p ps => simp [splitChar, hc, h]

/-- Every part produced by `splitChar` is separator-free. -/
theorem splitChar_sep_not_mem (sep : Char) (l : List Char) :
    ∀ p ∈ splitChar sep l, sep ∉ p := by
  induction l with
  | nil =>
    intro p hp
    simp [splitChar] at hp
    simp [hp]
  | cons c rest ih =>
    intro p hp
    by_cases hc : c = sep
    · simp [splitChar, hc] at hp
      rcases hp with hp | hp
      · simp [hp]
      · exact ih p hp
    · cases h : splitChar sep rest with
      | nil => exact absurd h (splitChar_ne_nil sep rest)
      | cons q qs =>
        simp [splitChar, hc, h] at hp
        rcases hp with hp | hp
        · subst hp
          have hq : sep ∉ q := ih q (by simp [h])
          simp [hc, hq]
          intro hcs
          exact hc hcs.symm
        · exact ih p (by simp [h, hp])

/-- `splitChar` decomposes the input: joining the parts with the separator
recovers the original character list. -/
theorem joinSep_splitChar (sep : Char) (l : List Char) :
    joinSep sep (splitChar sep l) = l := by
  induction l with
  | nil => simp [splitChar, joinSep]
  | cons c rest ih =>
    by_cases hc : c = sep
    · cases h : splitChar sep rest with
      | nil => exact absurd h (splitChar_ne_nil sep rest)
      | cons q qs =>
        rw [h] at ih
        simp [splitChar, hc, h, joinSep, ih]
    · cases h : splitChar sep rest with
      | nil => exact absurd h (splitChar_ne_nil sep rest)
      | cons q qs =>
        rw [h] at ih
        cases qs with
        | nil => simp [splitChar, hc, h, joinSep] at ih ⊢; simp [ih]
        | cons q' qs' => simp [splitChar, hc, h, joinSep] at ih ⊢; simp [ih]

/-- Splitting a list of the shape `p ++ sep :: r` with `sep ∉ p` peels off
`p` as the first part. -/
theorem splitChar_append (sep : Char) (p r : List Char) (hp : sep ∉ p) :
    splitChar sep (p ++ sep :: r) = p :: splitChar sep r := by
  induction p with
  | nil => simp [splitChar]
  | cons c p ih =>
    have hc : c ≠ sep := by
      intro h
      exact hp (by simp [h])
    have hp' : sep ∉ p := by
      intro h
      exact hp (by simp [h])
    have := ih hp'
    cases h : splitChar sep (p ++ sep :: r) with
    | nil => exact absurd h (splitChar_ne_nil sep _)
    | cons q qs =>
      rw [h] at this
      simp only [List.cons_append, splitChar, hc, if_false]
      have h' : splitChar sep (p.append (sep :: r)) = q :: qs := h
      rw [h']
      simp at this
      simp [this]

/-- Claim C7: `isTorusAccount` returns `true` iff the account's label
contains exactly one `@` character and the substring after it is exactly
`google` or exactly `discord`; every other label (no `@`, several `@`, or
another provider suffix) yields `false`. -/
theorem isTorusAccount_iff (a : Account) :
    isTorusAccount a = true ↔
      ∃ p : List Char, '@' ∉ p ∧
        (a.label.toList = p ++ '@' :: "google".toList ∨
         a.label.toList = p ++ '@' :: "discord".toList) := by
  constructor
  · intro h
    unfold isTorusAccount at h
    cases hs : splitChar '@' a.label.toList with
    | nil => exact absurd hs (splitChar_ne_nil _ _)
    | cons p ps =>
      cases ps with
      | nil => rw [hs] at h; simp at h
      | cons q qs =>
        cases qs with
        | nil =>
          rw [hs] at h
          simp at h
          refine ⟨p, splitChar_sep_not_mem _ _ p
            (by rw [hs]; exact List.mem_cons_self _ _), ?_⟩
          have hj := joinSep_splitChar '@' a.label.toList
          rw [hs] at hj
          simp [joinSep] at hj
          rcases h with h | h
          · left
            rw [show ("google".toList : List Char) = ['g','o','o','g','l','e'] from rfl,
              show a.label.toList = a.label.data from rfl, ← hj, h]
          · right
            rw [show ("discord".toList : List Char) = ['d','i','s','c','o','r','d'] from rfl,
              show a.label.toList = a.label.data from rfl, ← hj, h]
        | cons q' qs' => rw [hs] at h; simp at h
  · rintro ⟨p, hp, h | h⟩
    · unfold isTorusAccount
      rw [h, splitChar_append _ _ _ hp,
        show splitChar '@' "google".toList = ["google".toList] from by decide]
      simp
    · unfold isTorusAccount
      rw [h, splitChar_append _ _ _ hp,
        show splitChar '@' "discord".toList = ["discord".toList] from by decide]
      simp

/-- Concrete instance of claim C7: the label `y@google` marks a torus
account. -/
theorem isTorusAccount_iff_witness :
    isTorusAccount ⟨"a1", "y@google"⟩ = true :=
  (isTorusAccount_iff ⟨"a1", "y@google"⟩).mpr
    ⟨"y".toList, by decide, Or.inl (by decide)⟩

/-- Address-uniqueness makes `Account.address` injective on the account
list. -/
theorem addr_inj {l : List Account} (h : (l.map Account.address).Nodup)
    {a b : Account} (ha : a ∈ l) (hb : b ∈ l)
    (heq : a.address = b.address) : a = b :=
  List.inj_on_of_nodup_map h ha hb heq

/-- Claim C4: on an address-unique registry, `getAccount` returns the
account matching a non-empty `defaultAccountAddress`; with an unset (empty)
default it returns the first account in insertion order; and with a
non-empty default matching no account it fails with the
default-account-missing error instead of repairing. -/
theorem getAccount_spec (w : Wallet)
    (huniq : (w.accounts.map Account.address).Nodup) :
    (∀ a ∈ w.accounts, w.defaultAccountAddress ≠ "" →
        a.address = w.defaultAccountAddress → getAccount w = .ok (some a)) ∧
    (w.defaultAccountAddress = "" → getAccount w = .ok w.accounts.head?) ∧
    (w.defaultAccountAddress ≠ "" →
        (∀ a ∈ w.accounts, a.address ≠ w.defaultAccountAddress) →
        getAccount w = .error "Default account not found in wallet") := by
  refine ⟨?_, ?_, ?_⟩
  · intro a ha hd haddr
    unfold getAccount
    rw [if_neg hd]
    cases hf : w.accounts.find? (fun x => x.address = w.defaultAccountAddress) with
    | none =>
      have := List.find?_eq_none.mp hf a ha
      simp at this
      exact absurd haddr this
    | some b =>
      have hb : b ∈ w.accounts := List.mem_of_find?_eq_some hf
      have hbaddr : b.address = w.defaultAccountAddress := by
        have := List.find?_some hf
        simpa using this
      rw [addr_inj huniq ha hb (haddr.trans hbaddr.symm)]
  · intro hd
    unfold getAccount
    rw [if_pos hd]
  · intro hd hnone
    unfold getAccount
    rw [if_neg hd]
    have hf : w.accounts.find? (fun x => x.address = w.defaultAccountAddress) = none := by
      rw [List.find?_eq_none]
      intro x hx
      simp
      exact hnone x hx
    rw [hf]

/-- Concrete instances of claim C4: all three branches of `getAccount`. -/
theorem getAccount_spec_witness :
    getAccount ⟨[⟨"a1", "x"⟩], "a1"⟩ = .ok (some ⟨"a1", "x"⟩) ∧
    getAccount ⟨[⟨"a1", "x"⟩], ""⟩ = .ok (some ⟨"a1", "x"⟩) ∧
    getAccount ⟨[⟨"a1", "x"⟩], "zz"⟩ = .error "Default account not found in wallet" := by
  refine ⟨(getAccount_spec ⟨[⟨"a1", "x"⟩], "a1"⟩ (by decide)).1 ⟨"a1", "x"⟩
    (by decide) (by decide) rfl, ?_, ?_⟩
  · have h := (getAccount_spec ⟨[⟨"a1", "x"⟩], ""⟩ (by decide)).2.1 rfl
    rw [h]
    rfl
  · exact (getAccount_spec ⟨[⟨"a1", "x"⟩], "zz"⟩ (by decide)).2.2 (by decide) (by decide)

/-- Claim C10: with an empty accounts list and an unset (empty) default,
`getAccount` takes the fallback branch and returns no account (`undefined`
in the source, `none` here) without raising an error; the
default-account-missing error can only arise when `defaultAccountAddress`
is non-empty. -/
theorem getAccount_empty_safe (w : Wallet) :
    (w.accounts = [] → w.defaultAccountAddress = "" → getAccount w = .ok none) ∧
    (∀ e, getAccount w = .error e → w.defaultAccountAddress ≠ "") := by
  constructor
  · intro hacc hd
    unfold getAccount
    rw [if_pos hd, hacc]
    rfl
  · intro e he hd
    unfold getAccount at he
    rw [if_pos hd] at he
    exact Except.noConfusion he

/-- Concrete instances of claim C10: the empty wallet yields `.ok none`,
and a wallet producing the error has a non-empty default. -/
theorem getAccount_empty_safe_witness :
    getAccount ⟨[], ""⟩ = .ok none ∧
    (Wallet.mk [] "zz").defaultAccountAddress ≠ "" :=
  ⟨(getAccount_empty_safe ⟨[], ""⟩).1 rfl rfl,
   (getAccount_empty_safe ⟨[], "zz"⟩).2 "Default account not found in wallet" rfl⟩

/-- Counterexample to claim C2: importing an account whose address already
exists is not a complete no-op. On the registry `[a1, a2]` with default
`a2`, importing an account with address `a1` leaves the accounts list
unchanged but moves `defaultAccountAddress` from `a2` to `a1`, because
`setDefaultAccount` is called outside the duplicate check. -/
theorem addAccount_duplicate_not_noop :
    (∃ a ∈ (Wallet.mk [⟨"a1", "x"⟩, ⟨"a2", "y"⟩] "a2").accounts,
        a.address = (Account.mk "a1" "z").address) ∧
    (addAccount ⟨[⟨"a1", "x"⟩, ⟨"a2", "y"⟩], "a2"⟩ ⟨"a1", "z"⟩).accounts =
      (Wallet.mk [⟨"a1", "x"⟩, ⟨"a2", "y"⟩] "a2").accounts ∧
    (addAccount ⟨[⟨"a1", "x"⟩, ⟨"a2", "y"⟩], "a2"⟩ ⟨"a1", "z"⟩).defaultAccountAddress ≠
      (Wallet.mk [⟨"a1", "x"⟩, ⟨"a2", "y"⟩] "a2").defaultAccountAddress := by
  refine ⟨⟨⟨"a1", "x"⟩, by decide, rfl⟩, rfl, by decide⟩

/-- Duplicate import: the accounts list is unchanged, the default is
re-targeted at the imported address. -/
theorem addAccount_dup (w : Wallet) (acc : Account)
    (hmem : ∃ a ∈ w.accounts, a.address = acc.address) :
    (addAccount w acc).accounts = w.accounts ∧
    (addAccount w acc).defaultAccountAddress = acc.address := by
  have hany : w.accounts.any (fun a => a.address = acc.address) = true := by
    rw [List.any_eq_true]
    rcases hmem with ⟨a, ha, haddr⟩
    exact ⟨a, ha, by simpa using haddr⟩
  unfold addAccount
  rw [if_pos hany]
  exact ⟨rfl, rfl⟩

/-- Fresh import: the account is appended and becomes the default. -/
theorem addAccount_fresh (w : Wallet) (acc : Account)
    (hnone : ∀ a ∈ w.accounts, a.address ≠ acc.address) :
    (addAccount w acc).accounts = w.accounts ++ [acc] ∧
    (addAccount w acc).defaultAccountAddress = acc.address := by
  have hany : w.accounts.any (fun a => a.address = acc.address) = false := by
    rw [List.any_eq_false]
    intro a ha
    simpa using hnone a ha
  unfold addAccount
  rw [if_neg (by rw [hany]; exact Bool.false_ne_true)]
  exact ⟨rfl, rfl⟩

/-- Claim C2 (amended): importing an account whose address already equals
the address of some account leaves the accounts list (hence its size)
unchanged but still sets `defaultAccountAddress` to the imported address;
importing an account with a fresh address appends it and makes it the new
default. -/
theorem addAccount_spec (w : Wallet) (acc : Account) :
    ((∃ a ∈ w.accounts, a.address = acc.address) →
        (addAccount w acc).accounts = w.accounts ∧
        (addAccount w acc).defaultAccountAddress = acc.address) ∧
    ((∀ a ∈ w.accounts, a.address ≠ acc.address) →
        (addAccount w acc).accounts = w.accounts ++ [acc] ∧
        (addAccount w acc).defaultAccountAddress = acc.address) :=
  ⟨addAccount_dup w acc, addAccount_fresh w acc⟩

/-- Concrete instances of the amended claim C2: a duplicate import on
`[a1]` keeps the list and re-targets the default; a fresh import appends
and sets the default. -/
theorem addAccount_spec_witness :
    ((addAccount ⟨[⟨"a1", "x"⟩], "a1"⟩ ⟨"a1", "z"⟩).accounts = [⟨"a1", "x"⟩] ∧
      (addAccount ⟨[⟨"a1", "x"⟩], "a1"⟩ ⟨"a1", "z"⟩).defaultAccountAddress = "a1") ∧
    ((addAccount ⟨[⟨"a1", "x"⟩], "a1"⟩ ⟨"a2", "y"⟩).accounts =
        [⟨"a1", "x"⟩, ⟨"a2", "y"⟩] ∧
      (addAccount ⟨[⟨"a1", "x"⟩], "a1"⟩ ⟨"a2", "y"⟩).defaultAccountAddress = "a2") :=
  ⟨(addAccount_spec ⟨[⟨"a1", "x"⟩], "a1"⟩ ⟨"a1", "z"⟩).1 ⟨⟨"a1", "x"⟩, by decide, rfl⟩,
   (addAccount_spec ⟨[⟨"a1", "x"⟩], "a1"⟩ ⟨"a2", "y"⟩).2 (by decide)⟩

/-- A serialized wallet is never the empty string: it always begins with a
JSON object brace. -/
theorem serializeWallet_ne_empty (w : Wallet) : serializeWallet w ≠ "" := by
  intro h
  have hl := congrArg String.length h
  unfold serializeWallet at hl
  simp [String.length_append] at hl
  have h13 : ("\x7b\"accounts\":[" : String).length = 13 := rfl
  rw [h13] at hl
  exact absurd hl.1.1.1.1 (by omega)

/-- Counterexample to claim C6: on a registry whose single account is
federated, `filterTorusAccount` empties the registry yet still returns the
serialized (empty) wallet, not the empty-string marker that
`accountDelete` would return. -/
theorem filterTorus_no_empty_marker :
    (filterTorusAccount ⟨[⟨"a2", "y@google"⟩], "a2"⟩).1.accounts = [] ∧
    (filterTorusAccount ⟨[⟨"a2", "y@google"⟩], "a2"⟩).2 ≠ "" := by
  exact ⟨rfl, by decide⟩

/-- Claim C6 (amended): `filterTorusAccount` always returns the serialized
updated registry — even when the registry becomes empty — and never the
empty-string marker; it is `accountDelete` alone that returns the empty
marker exactly when the registry becomes empty. -/
theorem filterTorus_serialization (w : Wallet) :
    (filterTorusAccount w).2 = serializeWallet (filterTorusAccount w).1 ∧
    (filterTorusAccount w).2 ≠ "" ∧
    (∀ addr, (accountDelete addr w).2 = "" ↔ (accountDelete addr w).1.accounts = []) := by
  refine ⟨rfl, serializeWallet_ne_empty _, ?_⟩
  intro addr
  unfold accountDelete
  by_cases h : (removeAccount addr w).accounts = []
  · simp [h]
  · simp [h]
    exact serializeWallet_ne_empty (removeAccount addr w)

/-- Concrete instances of the amended claim C6: a torus filter on the empty
registry still returns a JSON string, while deleting the only account
returns the empty marker. -/
theorem filterTorus_serialization_witness :
    (filterTorusAccount ⟨[], ""⟩).2 ≠ "" ∧
    (accountDelete "a1" ⟨[⟨"a1", "x"⟩], "a1"⟩).2 = "" :=
  ⟨(filterTorus_serialization ⟨[], ""⟩).2.1,
   ((filterTorus_serialization ⟨[⟨"a1", "x"⟩], "a1"⟩).2.2 "a1").mpr (by decide)⟩

/-- The filtering loop keeps exactly the non-torus accounts, in order. -/
theorem filterTorus_foldl_fst (l : List Account) (s : List Account × String) :
    (l.foldl filterTorusStep s).1 = s.1 ++ l.filter (fun a => !isTorusAccount a) := by
  induction l generalizing s with
  | nil => simp
  | cons a l ih =>
    rw [List.foldl_cons]
    by_cases ht : isTorusAccount a = true
    · have hstep : filterTorusStep s a = if a.address = s.2 then (s.1, "") else s := by
        unfold filterTorusStep
        rw [if_neg (not_not_intro ht)]
      rw [hstep]
      by_cases h2 : a.address = s.2
      · rw [if_pos h2, ih]
        simp [List.filter_cons, ht]
      · rw [if_neg h2, ih]
        simp [List.filter_cons, ht]
    · have hstep : filterTorusStep s a = (s.1 ++ [a], s.2) := by
        unfold filterTorusStep
        rw [if_pos ht]
      rw [hstep, ih]
      simp [List.filter_cons, Bool.not_eq_true _ ▸ ht]

/-- Once the tracked default is empty it stays empty through the loop. -/
theorem filterTorus_foldl_snd_empty (l : List Account) (s : List Account × String)
    (h : s.2 = "") : (l.foldl filterTorusStep s).2 = "" := by
  induction l generalizing s with
  | nil => exact h
  | cons a l ih =>
    rw [List.foldl_cons]
    apply ih
    unfold filterTorusStep
    by_cases ht : isTorusAccount a = true
    · rw [if_neg (not_not_intro ht)]
      by_cases h2 : a.address = s.2
      · rw [if_pos h2]
      · rw [if_neg h2]
        exact h
    · rw [if_pos ht]
      exact h

/-- If no torus account in the list carries the tracked default address,
the loop leaves the default untouched. -/
theorem filterTorus_foldl_snd_keep (l : List Account) (s : List Account × String)
    (h : ∀ a ∈ l, isTorusAccount a = true → a.address ≠ s.2) :
    (l.foldl filterTorusStep s).2 = s.2 := by
  induction l generalizing s with
  | nil => rfl
  | cons a l ih =>
    rw [List.foldl_cons]
    have h2 : (filterTorusStep s a).2 = s.2 := by
      unfold filterTorusStep
      by_cases ht : isTorusAccount a = true
      · rw [if_neg (not_not_intro ht), if_neg (h a (List.mem_cons_self a l) ht)]
      · rw [if_pos ht]
    rw [ih (filterTorusStep s a)
      (by rw [h2]; exact fun b hb hbt => h b (List.mem_cons_of_mem _ hb) hbt), h2]

/-- Hitting a torus account that carries the tracked default address clears
the default for the rest of the loop. -/
theorem filterTorus_foldl_snd_clear (l1 l2 : List Account) (a : Account)
    (s : List Account × String) (ht : isTorusAccount a = true)
    (haddr : a.address = s.2) (h1 : ∀ b ∈ l1, b.address ≠ s.2) :
    ((l1 ++ a :: l2).foldl filterTorusStep s).2 = "" := by
  rw [List.foldl_append]
  have hs1 : (l1.foldl filterTorusStep s).2 = s.2 :=
    filterTorus_foldl_snd_keep l1 s (fun b hb _ => h1 b hb)
  rw [List.foldl_cons]
  generalize hgen : l1.foldl filterTorusStep s = t
  rw [hgen] at hs1
  have hstep : filterTorusStep t a = (t.1, "") := by
    unfold filterTorusStep
    rw [if_neg (not_not_intro ht), if_pos (by rw [hs1]; exact haddr)]
  rw [hstep]
  exact filterTorus_foldl_snd_empty _ _ rfl

/-- `filterTorusCore` removes exactly the torus accounts, preserving
order. -/
theorem filterTorusCore_accounts (w : Wallet) :
    (filterTorusCore w).accounts = w.accounts.filter (fun a => !isTorusAccount a) := by
  simp only [filterTorusCore]
  rw [filterTorus_foldl_fst]
  simp

/-- If the (unique) holder of the default address is a torus account, the
filter clears the default and then reassigns it to the first surviving
account, if any. -/
theorem filterTorusCore_default_of_torus (w : Wallet)
    (huniq : (w.accounts.map Account.address).Nodup)
    (a : Account) (ha : a ∈ w.accounts) (ht : isTorusAccount a = true)
    (haddr : a.address = w.defaultAccountAddress) :
    (filterTorusCore w).defaultAccountAddress =
      headAddr (w.accounts.filter (fun x => !isTorusAccount x)) := by
  obtain ⟨l1, l2, hdecomp⟩ := List.append_of_mem ha
  have hmap := huniq
  rw [hdecomp, List.map_append, List.map_cons] at hmap
  have hnotin : a.address ∉ l1.map Account.address := by
    intro hin
    rcases List.nodup_append.mp hmap with ⟨-, -, hdisj⟩
    exact hdisj hin (List.mem_cons_self _ _)
  have h1 : ∀ b ∈ l1, b.address ≠ w.defaultAccountAddress := by
    intro b hb heq
    apply hnotin
    rw [haddr, ← heq]
    exact List.mem_map_of_mem Account.address hb
  have hsnd : (w.accounts.foldl filterTorusStep ([], w.defaultAccountAddress)).2 = "" := by
    rw [hdecomp]
    exact filterTorus_foldl_snd_clear l1 l2 a ([], w.defaultAccountAddress) ht haddr h1
  simp only [filterTorusCore]
  rw [hsnd, if_pos rfl, filterTorus_foldl_fst]
  simp

/-- If the (unique) holder of the default address is not a torus account
and the default is set, the filter leaves the default untouched. -/
theorem filterTorusCore_default_of_nontorus (w : Wallet)
    (huniq : (w.accounts.map Account.address).Nodup)
    (a : Account) (ha : a ∈ w.accounts) (ht : isTorusAccount a = false)
    (haddr : a.address = w.defaultAccountAddress)
    (hd : w.defaultAccountAddress ≠ "") :
    (filterTorusCore w).defaultAccountAddress = w.defaultAccountAddress := by
  have hkeep : ∀ b ∈ w.accounts, isTorusAccount b = true →
      b.address ≠ w.defaultAccountAddress := by
    intro b hb hbt heq
    have hba : b = a := addr_inj huniq hb ha (heq.trans haddr.symm)
    rw [hba, ht] at hbt
    exact Bool.noConfusion hbt
  have hsnd : (w.accounts.foldl filterTorusStep ([], w.defaultAccountAddress)).2 =
      w.defaultAccountAddress :=
    filterTorus_foldl_snd_keep w.accounts ([], w.defaultAccountAddress) hkeep
  simp only [filterTorusCore]
  rw [hsnd, if_neg hd]

/-- Claim C5: `filterTorusAccount` removes exactly the torus (federated)
accounts, preserving the relative order of the rest; and if the (unique)
default account was federated, the default pointer is cleared and, when at
least one non-federated account survives, reassigned to the first
survivor (`headAddr` of the filtered list, which is empty exactly when no
account survives). -/
theorem filterTorus_spec (w : Wallet)
    (huniq : (w.accounts.map Account.address).Nodup) :
    (filterTorusAccount w).1.accounts = w.accounts.filter (fun a => !isTorusAccount a) ∧
    (∀ a ∈ w.accounts, isTorusAccount a = true →
        a.address = w.defaultAccountAddress →
        (filterTorusAccount w).1.defaultAccountAddress =
          headAddr (w.accounts.filter (fun x => !isTorusAccount x))) :=
  ⟨filterTorusCore_accounts w,
   fun a ha ht haddr => filterTorusCore_default_of_torus w huniq a ha ht haddr⟩

/-- The concrete instance of claim C5: on accounts
`[A(label x), B(label y@google), C(label z@discord)]` with default `B`,
the filter yields `[A]` with default reassigned to `A`'s address. -/
theorem filterTorus_spec_witness :
    (filterTorusAccount ⟨[⟨"a1", "x"⟩, ⟨"a2", "y@google"⟩, ⟨"a3", "z@discord"⟩],
        "a2"⟩).1.accounts = [⟨"a1", "x"⟩] ∧
    (filterTorusAccount ⟨[⟨"a1", "x"⟩, ⟨"a2", "y@google"⟩, ⟨"a3", "z@discord"⟩],
        "a2"⟩).1.defaultAccountAddress = "a1" := by
  have h := filterTorus_spec
    ⟨[⟨"a1", "x"⟩, ⟨"a2", "y@google"⟩, ⟨"a3", "z@discord"⟩], "a2"⟩ (by decide)
  constructor
  · rw [h.1]
    decide
  · rw [h.2 ⟨"a2", "y@google"⟩ (by decide) (by decide) rfl]
    decide

/-- `addAccount` preserves the registry invariant. -/
theorem addAccount_inv (w : Wallet) (acc : Account) (hw : WalletInv w)
    (ha : acc.address ≠ "") : WalletInv (addAccount w acc) := by
  obtain ⟨hnd, haddrs, hiff, hex⟩ := hw
  by_cases hmem : ∃ a ∈ w.accounts, a.address = acc.address
  · obtain ⟨haccounts, hdef⟩ := addAccount_dup w acc hmem
    obtain ⟨b, hb, hbaddr⟩ := hmem
    refine ⟨?_, ?_, ?_, ?_⟩
    · rw [haccounts]; exact hnd
    · rw [haccounts]; exact haddrs
    · rw [haccounts, hdef]
      exact iff_of_false ha (fun h => List.not_mem_nil b (h ▸ hb))
    · intro hne
      rw [haccounts, hdef]
      exact ⟨b, hb, hbaddr⟩
  · push_neg at hmem
    obtain ⟨haccounts, hdef⟩ := addAccount_fresh w acc hmem
    refine ⟨?_, ?_, ?_, ?_⟩
    · rw [haccounts, List.map_append, List.nodup_append]
      refine ⟨hnd, by simp, ?_⟩
      intro x hx hx2
      simp at hx2
      obtain ⟨b, hb, hbx⟩ := List.mem_map.mp hx
      exact hmem b hb (by rw [hbx, hx2])
    · rw [haccounts]
      intro a ha2
      rcases List.mem_append.mp ha2 with h | h
      · exact haddrs a h
      · simp at h
        rw [h]
        exact ha
    · rw [haccounts, hdef]
      exact iff_of_false ha (by simp)
    · intro hne
      rw [haccounts, hdef]
      exact ⟨acc, by simp, rfl⟩

/-- The accounts list after `removeAccount` is exactly the filter dropping
the matching address, whether or not a match existed. -/
theorem removeAccount_accounts (addr : String) (w : Wallet) :
    (removeAccount addr w).accounts =
      w.accounts.filter (fun a => ¬ a.address = addr) := by
  unfold removeAccount
  cases hf : w.accounts.find? (fun a => a.address = addr) with
  | some b =>
    simp only [hf]
    split <;> rfl
  | none =>
    have hself : w.accounts.filter (fun a => ¬ a.address = addr) = w.accounts := by
      rw [List.filter_eq_self]
      intro a ha
      have := List.find?_eq_none.mp hf a ha
      simpa using this
    simp only [hf]
    split <;> exact hself.symm

/-- Deleting the default address points the default at the head of the
remaining accounts (or clears it). -/
theorem removeAccount_default_hit (addr : String) (w : Wallet)
    (hd : w.defaultAccountAddress = addr) :
    (removeAccount addr w).defaultAccountAddress =
      headAddr (removeAccount addr w).accounts := by
  simp only [removeAccount]
  rw [if_pos hd]

/-- Deleting a non-default address leaves the default untouched. -/
theorem removeAccount_default_miss (addr : String) (w : Wallet)
    (hd : w.defaultAccountAddress ≠ addr) :
    (removeAccount addr w).defaultAccountAddress = w.defaultAccountAddress := by
  simp only [removeAccount]
  rw [if_neg hd]

/-- `removeAccount` preserves the registry invariant. -/
theorem removeAccount_inv (addr : String) (w : Wallet) (hw : WalletInv w) :
    WalletInv (removeAccount addr w) := by
  obtain ⟨hnd, haddrs, hiff, hex⟩ := hw
  have hacc := removeAccount_accounts addr w
  have hnd' : ((removeAccount addr w).accounts.map Account.address).Nodup := by
    rw [hacc]
    exact List.Nodup.sublist (List.Sublist.map _ (List.filter_sublist _)) hnd
  have haddrs' : ∀ a ∈ (removeAccount addr w).accounts, a.address ≠ "" := by
    rw [hacc]
    intro a ha
    exact haddrs a (List.mem_filter.mp ha).1
  by_cases hd : w.defaultAccountAddress = addr
  · have hdef := removeAccount_default_hit addr w hd
    cases hF : (removeAccount addr w).accounts with
    | nil =>
      refine ⟨hnd', haddrs', ?_, ?_⟩
      · rw [hdef, hF]
        simp [headAddr]
      · intro hne
        exact absurd hF hne
    | cons b rest =>
      have hb : b ∈ (removeAccount addr w).accounts := by
        rw [hF]
        exact List.mem_cons_self _ _
      refine ⟨hnd', haddrs', ?_, ?_⟩
      · rw [hdef, hF]
        simp [headAddr]
        exact haddrs' b hb
      · intro hne
        rw [hdef, hF]
        exact ⟨b, List.mem_cons_self _ _, rfl⟩
  · have hdef := removeAccount_default_miss addr w hd
    by_cases hempty : w.defaultAccountAddress = ""
    · have hacc0 : w.accounts = [] := hiff.mp hempty
      refine ⟨hnd', haddrs', ?_, ?_⟩
      · rw [hdef, hacc, hacc0]
        simp [hempty]
      · intro hne
        rw [hacc, hacc0] at hne
        simp at hne
    · have hne : w.accounts ≠ [] := fun h => hempty (hiff.mpr h)
      obtain ⟨a, ha, haddr⟩ := hex hne
      have hsurv : a ∈ (removeAccount addr w).accounts := by
        rw [hacc, List.mem_filter]
        refine ⟨ha, ?_⟩
        simp
        rw [haddr]
        exact hd
      refine ⟨hnd', haddrs', ?_, ?_⟩
      · rw [hdef]
        exact iff_of_false hempty (fun h => List.not_mem_nil a (h ▸ hsurv))
      · intro hne'
        rw [hdef]
        exact ⟨a, hsurv, haddr⟩

/-- `filterTorusCore` preserves the registry invariant. -/
theorem filterTorusCore_inv (w : Wallet) (hw : WalletInv w) :
    WalletInv (filterTorusCore w) := by
  obtain ⟨hnd, haddrs, hiff, hex⟩ := hw
  have hacc := filterTorusCore_accounts w
  have hnd' : ((filterTorusCore w).accounts.map Account.address).Nodup := by
    rw [hacc]
    exact List.Nodup.sublist (List.Sublist.map _ (List.filter_sublist _)) hnd
  have haddrs' : ∀ a ∈ (filterTorusCore w).accounts, a.address ≠ "" := by
    rw [hacc]
    intro a ha
    exact haddrs a (List.mem_filter.mp ha).1
  by_cases hempty : w.accounts = []
  · have hd0 : w.defaultAccountAddress = "" := hiff.mpr hempty
    have hdef : (filterTorusCore w).defaultAccountAddress = "" := by
      simp only [filterTorusCore]
      rw [hempty, hd0]
      simp [headAddr]
    refine ⟨hnd', haddrs', ?_, ?_⟩
    · rw [hdef, hacc, hempty]
      simp
    · intro hne
      rw [hacc, hempty] at hne
      simp at hne
  · have hd0 : w.defaultAccountAddress ≠ "" := fun h => hempty (hiff.mp h)
    obtain ⟨a, ha, haddr⟩ := hex hempty
    by_cases ht : isTorusAccount a = true
    · have hdef := filterTorusCore_default_of_torus w hnd a ha ht haddr
      cases hF : w.accounts.filter (fun x => !isTorusAccount x) with
      | nil =>
        refine ⟨hnd', haddrs', ?_, ?_⟩
        · rw [hdef, hF, hacc, hF]
          simp [headAddr]
        · intro hne
          rw [hacc, hF] at hne
          simp at hne
      | cons b rest =>
        have hb : b ∈ w.accounts.filter (fun x => !isTorusAccount x) := by
          rw [hF]
          exact List.mem_cons_self _ _
        have hbmem : b ∈ w.accounts := (List.mem_filter.mp hb).1
        refine ⟨hnd', haddrs', ?_, ?_⟩
        · rw [hdef, hF, hacc, hF]
          simp [headAddr]
          exact haddrs b hbmem
        · intro hne
          rw [hdef, hF, hacc, hF]
          exact ⟨b, List.mem_cons_self _ _, rfl⟩
    · have ht' : isTorusAccount a = false := by simpa using ht
      have hdef := filterTorusCore_default_of_nontorus w hnd a ha ht' haddr hd0
      have hsurv : a ∈ (filterTorusCore w).accounts := by
        rw [hacc, List.mem_filter]
        exact ⟨ha, by simp [ht']⟩
      refine ⟨hnd', haddrs', ?_, ?_⟩
      · rw [hdef]
        exact iff_of_false hd0 (fun h => List.not_mem_nil a (h ▸ hsurv))
      · intro hne
        rw [hdef]
        exact ⟨a, hsurv, haddr⟩

/-- Every registry operation preserves the invariant. -/
theorem applyOp_inv (w : Wallet) (op : RegistryOp) (hw : WalletInv w)
    (hop : opAddressOk op = true) : WalletInv (applyOp w op) := by
  cases op with
  | add acc =>
    exact addAccount_inv w acc hw (by simpa [opAddressOk] using hop)
  | remove addr => exact removeAccount_inv addr w hw
  | filterTorus => exact filterTorusCore_inv w hw

/-- Every finite sequence of registry operations preserves the
invariant. -/
theorem applyOps_inv : ∀ (ops : List RegistryOp) (w : Wallet), WalletInv w →
    ops.all opAddressOk = true → WalletInv (applyOps w ops) := by
  intro ops
  induction ops with
  | nil =>
    intro w hw _
    exact hw
  | cons op rest ih =>
    intro w hw hall
    rw [List.all_cons, Bool.and_eq_true] at hall
    simp only [applyOps, List.foldl_cons]
    exact ih (applyOp w op) (applyOp_inv w op hw hall.1) hall.2

/-- Claim C1: starting from a registry satisfying the invariant, after any
finite sequence of `addAccount` / `removeAccount` / `filterTorusAccount`
operations the default address is empty iff the accounts list is empty,
and otherwise it equals the address of exactly one account. -/
theorem registry_default_invariant (w : Wallet) (ops : List RegistryOp)
    (hw : WalletInv w) (hops : ops.all opAddressOk = true) :
    ((applyOps w ops).defaultAccountAddress = "" ↔ (applyOps w ops).accounts = []) ∧
    ((applyOps w ops).accounts ≠ [] →
      ∃! a : Account, a ∈ (applyOps w ops).accounts ∧
        a.address = (applyOps w ops).defaultAccountAddress) := by
  obtain ⟨hnd, haddrs, hiff, hex⟩ := applyOps_inv ops w hw hops
  refine ⟨hiff, ?_⟩
  intro hne
  obtain ⟨a, ha, haddr⟩ := hex hne
  refine ⟨a, ⟨ha, haddr⟩, ?_⟩
  rintro b ⟨hb, hbaddr⟩
  exact addr_inj hnd hb ha (hbaddr.trans haddr.symm)

/-- Concrete instance of claim C1: from the empty registry, import two
accounts, delete the first, then filter; the invariant's conclusion holds
of the resulting registry. -/
theorem registry_default_invariant_witness :
    ((applyOps ⟨[], ""⟩ [RegistryOp.add ⟨"a1", "x"⟩, RegistryOp.add ⟨"a2", "y"⟩,
        RegistryOp.remove "a1", RegistryOp.filterTorus]).defaultAccountAddress = "" ↔
      (applyOps ⟨[], ""⟩ [RegistryOp.add ⟨"a1", "x"⟩, RegistryOp.add ⟨"a2", "y"⟩,
        RegistryOp.remove "a1", RegistryOp.filterTorus]).accounts = []) ∧
    ((applyOps ⟨[], ""⟩ [RegistryOp.add ⟨"a1", "x"⟩, RegistryOp.add ⟨"a2", "y"⟩,
        RegistryOp.remove "a1", RegistryOp.filterTorus]).accounts ≠ [] →
      ∃! a : Account, a ∈ (applyOps ⟨[], ""⟩ [RegistryOp.add ⟨"a1", "x"⟩,
        RegistryOp.add ⟨"a2", "y"⟩, RegistryOp.remove "a1",
        RegistryOp.filterTorus]).accounts ∧
        a.address = (applyOps ⟨[], ""⟩ [RegistryOp.add ⟨"a1", "x"⟩,
          RegistryOp.add ⟨"a2", "y"⟩, RegistryOp.remove "a1",
          RegistryOp.filterTorus]).defaultAccountAddress) :=
  registry_default_invariant ⟨[], ""⟩
    [RegistryOp.add ⟨"a1", "x"⟩, RegistryOp.add ⟨"a2", "y"⟩,
      RegistryOp.remove "a1", RegistryOp.filterTorus]
    (by refine ⟨by simp, by simp, by simp, by simp⟩) (by decide)

/-- Every Unicode codepoint is below `1114112 = 0x110000`, the sentinel
used to separate encoded fields. -/
theorem char_toNat_lt (c : Char) : c.toNat < 1114112 := by
  rcases c.valid with h | ⟨h1, h2⟩
  · exact Nat.lt_trans h (by omega)
  · exact h2

/-- All entries of an encoded string are below the sentinel. -/
theorem strEncode_lt (s : String) : ∀ x ∈ strEncode s, x < 1114112 := by
  intro x hx
  obtain ⟨c, _, hc⟩ := List.mem_map.mp hx
  rw [← hc]
  exact char_toNat_lt c

/-- `strEncode` is injective. -/
theorem strEncode_inj (s1 s2 : String) (h : strEncode s1 = strEncode s2) :
    s1 = s2 := by
  unfold strEncode at h
  have hchar : Function.Injective Char.toNat := by
    intro c1 c2 hc
    rw [← Char.ofNat_toNat c1, ← Char.ofNat_toNat c2, hc]
  have : s1.toList = s2.toList := (List.map_injective_iff.mpr hchar) h
  exact String.ext this

/-- Splitting at a sentinel that occurs in neither prefix is unambiguous. -/
theorem append_sep_inj (xs : List Nat) :
    ∀ (ys t1 t2 : List Nat), (∀ x ∈ xs, x < 1114112) → (∀ y ∈ ys, y < 1114112) →
    xs ++ 1114112 :: t1 = ys ++ 1114112 :: t2 → xs = ys ∧ t1 = t2 := by
  induction xs with
  | nil =>
    intro ys t1 t2 hx hy h
    cases ys with
    | nil => simpa using h
    | cons y ys' =>
      simp at h
      exact absurd h.1.symm (Nat.ne_of_lt (hy y (List.mem_cons_self _ _)))
  | cons x xs' ih =>
    intro ys t1 t2 hx hy h
    cases ys with
    | nil =>
      simp at h
      exact absurd h.1 (Nat.ne_of_lt (hx x (List.mem_cons_self _ _)))
    | cons y ys' =>
      simp at h
      obtain ⟨hxy, hrest⟩ := h
      obtain ⟨h1, h2⟩ := ih ys' t1 t2
        (fun a ha => hx a (List.mem_cons_of_mem _ ha))
        (fun a ha => hy a (List.mem_cons_of_mem _ ha)) hrest
      exact ⟨by rw [hxy, h1], h2⟩

/-- Byte-wise cipher inversion. -/
theorem byte_roundtrip (b S : Nat) (hb : b < 256) :
    ((b + S) % 256 + (256 - S % 256)) % 256 = b := by
  omega

/-- A list stays fixed under a map that fixes each member. -/
theorem map_id_of_mem {α : Type} (l : List α) (f : α → α)
    (h : ∀ x ∈ l, f x = x) : l.map f = l := by
  induction l with
  | nil => rfl
  | cons x xs ih =>
    rw [List.map_cons, h x (List.mem_cons_self _ _),
      ih (fun y hy => h y (List.mem_cons_of_mem _ hy))]

/-- Claim C3: decrypting the encryption of key bytes `k` under password
`p` (bound to an address and salt, with the wallet's scrypt parameters)
with the same password yields exactly `k`, and decrypting with any other
password fails with a decryption error instead of returning a value. -/
theorem encrypt_decrypt_roundtrip (k : List Nat) (p p' addr salt : String)
    (params : ScryptParams) (hk : ∀ b ∈ k, b < 256) :
    decryptKey (encryptKey k p addr salt params) p addr salt params = some k ∧
    (p' ≠ p →
      decryptKey (encryptKey k p addr salt params) p' addr salt params = none) := by
  constructor
  · unfold decryptKey encryptKey
    rw [if_pos rfl]
    congr 1
    rw [List.map_map]
    exact map_id_of_mem k _ (fun b hb => byte_roundtrip b _ (hk b hb))
  · intro hne
    unfold decryptKey encryptKey
    rw [if_neg ?_]
    intro heq
    have htail := List.append_cancel_left heq
    have hkdf : kdf p salt params = kdf p' salt params := by
      simpa using htail
    unfold kdf at hkdf
    obtain ⟨hp, -⟩ := append_sep_inj (strEncode p) (strEncode p') _ _
      (strEncode_lt p) (strEncode_lt p') hkdf
    exact hne (strEncode_inj p' p (hp.symm))

/-- Concrete instance of claim C3: a three-byte key round-trips under the
correct password and is rejected under a wrong one. -/
theorem encrypt_decrypt_roundtrip_witness :
    decryptKey (encryptKey [1, 2, 255] "pw" "addr" "salt" ⟨8, 16384, 8, 64⟩)
        "pw" "addr" "salt" ⟨8, 16384, 8, 64⟩ = some [1, 2, 255] ∧
    decryptKey (encryptKey [1, 2, 255] "pw" "addr" "salt" ⟨8, 16384, 8, 64⟩)
        "wrong" "addr" "salt" ⟨8, 16384, 8, 64⟩ = none :=
  ⟨(encrypt_decrypt_roundtrip [1, 2, 255] "pw" "wrong" "addr" "salt"
      ⟨8, 16384, 8, 64⟩ (by decide)).1,
   (encrypt_decrypt_roundtrip [1, 2, 255] "pw" "wrong" "addr" "salt"
      ⟨8, 16384, 8, 64⟩ (by decide)).2 (by decide)⟩

/-- Claim C9: `accountImportMnemonics` derives with the fixed path
`m/44'/1024'/0'/0/0` in primary mode and the distinct fixed path
`m/44'/888'/0'/0/0` in neo-compatible mode (the two lists below are the
codepoints of exactly those paths); the same mnemonic and mode always
yield the same key, and the two modes yield different keys for the same
mnemonic. -/
theorem mnemonic_derivation_spec :
    (bip32Path false).toList.map Char.toNat =
        [109, 47, 52, 52, 39, 47, 49, 48, 50, 52, 39, 47, 48, 39, 47, 48, 47, 48] ∧
    (bip32Path true).toList.map Char.toNat =
        [109, 47, 52, 52, 39, 47, 56, 56, 56, 39, 47, 48, 39, 47, 48, 47, 48] ∧
    (∀ m : String, ∀ neo : Bool,
        accountImportMnemonicsKey m neo = accountImportMnemonicsKey m neo) ∧
    (∀ m : String,
        accountImportMnemonicsKey m false ≠ accountImportMnemonicsKey m true) := by
  refine ⟨by decide, by decide, fun m neo => rfl, ?_⟩
  intro m h
  unfold accountImportMnemonicsKey generateFromMnemonic at h
  have htail := List.append_cancel_left h
  have hpaths : strEncode (bip32Path false) = strEncode (bip32Path true) := by
    simpa using htail
  exact absurd (strEncode_inj _ _ hpaths) (by decide)

/-- Concrete instance of claim C9: the two modes disagree on the mnemonic
`"abandon ability"`. -/
theorem mnemonic_derivation_spec_witness :
    accountImportMnemonicsKey "abandon ability" false ≠
      accountImportMnemonicsKey "abandon ability" true :=
  mnemonic_derivation_spec.2.2.2 "abandon ability"

/-- Claim C8: a 52-character input is decoded as WIF, with a checksum
mismatch reported as an error; any other input is decoded as hex, where
exactly 32 bytes yield an ECDSA/secp256r1 key with those bytes, and any
other byte length is parsed as a 1-byte algorithm tag and a 1-byte curve
tag followed by a 32-byte key, failing on unrecognized tag bytes (or when
fewer than 34 bytes are available to read). -/
theorem private_key_import_spec (s : String) :
    (s.length = 52 → parsePrivateKeyInput s = deserializeWIF s) ∧
    (s.length = 52 → ∀ bytes, base58Decode s = some bytes → bytes.length = 38 →
        bytes.drop 34 ≠ wifChecksum (bytes.take 34) →
        parsePrivateKeyInput s = .error "checksum mismatch") ∧
    (s.length ≠ 52 → (jsHexDecode s.toList).length = 32 →
        parsePrivateKeyInput s = .ok ⟨jsHexDecode s.toList, .ECDSA, .SECP256R1⟩) ∧
    (s.length ≠ 52 → (jsHexDecode s.toList).length ≠ 32 →
      ∀ a c rest, jsHexDecode s.toList = a :: c :: rest → 32 ≤ rest.length →
        (∀ e, keyTypeFromHex a = .error e → parsePrivateKeyInput s = .error e) ∧
        (∀ alg, keyTypeFromHex a = .ok alg →
          (∀ e, curveLabelFromHex c = .error e → parsePrivateKeyInput s = .error e) ∧
          (∀ curve, curveLabelFromHex c = .ok curve →
            parsePrivateKeyInput s = .ok ⟨rest.take 32, alg, curve⟩))) ∧
    (s.length ≠ 52 → (jsHexDecode s.toList).length ≠ 32 →
      ∀ a c rest, jsHexDecode s.toList = a :: c :: rest → rest.length < 32 →
        parsePrivateKeyInput s = .error "reader out of bounds") := by
  refine ⟨?_, ?_, ?_, ?_, ?_⟩
  · intro h52
    unfold parsePrivateKeyInput
    rw [if_pos h52]
  · intro h52 bytes hdec h38 hbad
    unfold parsePrivateKeyInput
    rw [if_pos h52]
    simp only [deserializeWIF, hdec]
    rw [if_pos h38, if_neg hbad]
  · intro h52 h32
    unfold parsePrivateKeyInput
    rw [if_neg h52]
    unfold deserializePrivateKey
    rw [if_pos h32]
  · intro h52 h32 a c rest hdec hge
    have hparse : parsePrivateKeyInput s = readTagged (a :: c :: rest) := by
      unfold parsePrivateKeyInput
      rw [if_neg h52]
      unfold deserializePrivateKey
      rw [if_neg h32, hdec]
    have hnotlt : ¬ rest.length < 32 := Nat.not_lt.mpr hge
    constructor
    · intro e he
      rw [hparse]
      simp only [readTagged]
      rw [if_neg hnotlt, he]
    · intro alg halg
      constructor
      · intro e he
        rw [hparse]
        simp only [readTagged]
        rw [if_neg hnotlt, halg, he]
      · intro curve hcurve
        rw [hparse]
        simp only [readTagged]
        rw [if_neg hnotlt, halg, hcurve]
  · intro h52 h32 a c rest hdec hlt
    have hparse : parsePrivateKeyInput s = readTagged (a :: c :: rest) := by
      unfold parsePrivateKeyInput
      rw [if_neg h52]
      unfold deserializePrivateKey
      rw [if_neg h32, hdec]
    rw [hparse]
    simp only [readTagged]
    rw [if_pos hlt]

/-- Concrete instances of claim C8: the raw 32-byte hex path, the
corrupted-checksum WIF path, an unknown algorithm tag, a successful tagged
key and a too-short tagged input. -/
theorem private_key_import_spec_witness :
    parsePrivateKeyInput (String.mk (List.replicate 64 '0')) =
      .ok ⟨List.replicate 32 0, .ECDSA, .SECP256R1⟩ ∧
    parsePrivateKeyInput (String.mk (List.replicate 52 '2')) =
      .error "checksum mismatch" ∧
    parsePrivateKeyInput ("ff02" ++ String.mk (List.replicate 64 '0')) =
      .error "unknown key type" ∧
    parsePrivateKeyInput ("1202" ++ String.mk (List.replicate 64 '0')) =
      .ok ⟨List.replicate 32 0, .ECDSA, .SECP256R1⟩ ∧
    parsePrivateKeyInput "1202" = .error "reader out of bounds" := by
  refine ⟨?_, ?_, ?_, ?_, ?_⟩
  · have h := (private_key_import_spec
      (String.mk (List.replicate 64 '0'))).2.2.1 (by decide) (by decide)
    rw [h]
    rfl
  · exact (private_key_import_spec (String.mk (List.replicate 52 '2'))).2.1
      (by decide)
      [6, 224, 238, 11, 115, 32, 18, 241, 241, 169, 172, 167, 185, 86, 74, 69,
        222, 32, 73, 160, 65, 105, 66, 131, 216, 203, 45, 209, 221, 81, 79, 81,
        31, 112, 71, 220, 17, 247]
      (by rfl) (by rfl) (by decide)
  · exact ((private_key_import_spec
      ("ff02" ++ String.mk (List.replicate 64 '0'))).2.2.2.1 (by decide)
      (by decide) 255 2 (List.replicate 32 0) (by rfl) (by decide)).1
      "unknown key type" rfl
  · have h := ((private_key_import_spec
      ("1202" ++ String.mk (List.replicate 64 '0'))).2.2.2.1 (by decide)
      (by decide) 18 2 (List.replicate 32 0) (by rfl) (by decide)).2
      KeyType.ECDSA rfl
    exact (h.2 CurveLabel.SECP256R1 rfl).trans (by rfl)
  · exact (private_key_import_spec "1202").2.2.2.2 (by decide) (by decide)
      18 2 [] (by rfl) (by decide)

end CyanoWallet
